import Mathlib

/-!
Verification of the TidyAI response post-processing layer.

The definitions below are shallow embeddings of the TypeScript source:
  - `cleanText`, `extractJSON` from `src/services/geminiService.ts`
  - `analyzeRoomImage` / `sendChatMessage` post-processing and control flow
  - the chat conversation state from `src/components/ChatInterface.tsx`
Strings are modelled as `List Char` (JavaScript code points; all text in the
repository lies in the BMP so surrogate-pair issues do not arise).
-/

namespace TidyAI

abbrev Str := List Char

/-! ### JavaScript character classes

`isJsSpace` is the set matched by the regex class `\s` (which for JavaScript
coincides with the character set removed by `String.prototype.trim`);
`isLineTerm` is the ECMAScript LineTerminator set, i.e. the characters NOT
matched by `.` in a regex without the `s` flag. -/

def isJsSpace (c : Char) : Bool :=
  let n := c.toNat
  (9 ≤ n && n ≤ 13) || n = 32 || n = 160 || n = 0x1680 ||
  (0x2000 ≤ n && n ≤ 0x200a) || n = 0x2028 || n = 0x2029 ||
  n = 0x202f || n = 0x205f || n = 0x3000 || n = 0xfeff

def isLineTerm (c : Char) : Bool :=
  c = '\n' || c = '\r' || c.toNat = 0x2028 || c.toNat = 0x2029

/-! ### The response sanitizer `cleanText`

Source (`geminiService.ts` lines 30-48):
```
cleaned = cleaned.replace(/\([A-Za-z\s&:\-.]+\)/g, "");
cleaned = cleaned.replace(/^(Description|Translation|Context|Note|Analysis):\s* /i, "");
cleaned = cleaned.replace(/\*\* /g, "");
cleaned = cleaned.replace(/Wait,.* $/i, "");
return cleaned.trim();
```
(each `* ` above is `*` in the source; spaces inserted to keep this comment
free of comment-closing sequences).  Note that in the last regex `.` does not
match line terminators and `$` (no `m` flag) only matches at the very end of
the string, so the rule only fires at an occurrence after which no line
terminator appears. -/

/-- The regex class `[A-Za-z\s&:\-.]`. -/
def isParenClass (c : Char) : Bool :=
  (65 ≤ c.toNat && c.toNat ≤ 90) || (97 ≤ c.toNat && c.toNat ≤ 122) ||
  isJsSpace c || c = '&' || c = ':' || c = '-' || c = '.'

/-- After an opening parenthesis: a nonempty run of class characters followed
by a closing parenthesis.  Returns the input after the closing parenthesis
when the pattern `\([A-Za-z\s&:\-.]+\)` matches here. -/
def parenChunk (l : Str) : Option Str :=
  match l.takeWhile isParenClass, l.dropWhile isParenClass with
  | [], _ => none
  | _ :: _, c :: tail => if c = ')' then some tail else none
  | _ :: _, [] => none

/-- Fueled scan for the global replace of `\([A-Za-z\s&:\-.]+\)` by the empty
string; the fuel is structurally decreasing so the kernel can evaluate it.
With fuel at least the length of the list this is the full scan. -/
def removeParensF : Nat → Str → Str
  | _, [] => []
  | 0, l => l
  | fuel + 1, c :: rest =>
    if c = '(' then
      match parenChunk rest with
      | some tail => removeParensF fuel tail
      | none => '(' :: removeParensF fuel rest
    else c :: removeParensF fuel rest

def removeParens (l : Str) : Str := removeParensF l.length l

/-- Case-insensitive match of an ASCII-lowercase pattern against the head of
the text, returning the remainder.  (For ASCII patterns this agrees with the
regex `i` flag canonicalisation: no code point outside A-Z lower-cases onto an
ASCII letter, and `Char.toLower` only affects A-Z.) -/
def ciStrip : Str → Str → Option Str
  | [], l => some l
  | _ :: _, [] => none
  | a :: pat, b :: l => if b.toLower = a then ciStrip pat l else none

/-- One alternative of `^(Description|Translation|Context|Note|Analysis):\s*`:
the word, then a literal `:`, then greedy whitespace. -/
def tryLabel (w : Str) (l : Str) : Option Str :=
  match ciStrip w l with
  | some (c :: r) => if c = ':' then some (r.dropWhile isJsSpace) else none
  | _ => none

def firstLabelHit (l : Str) : Option Str :=
  match tryLabel "description".data l with
  | some r => some r
  | none =>
    match tryLabel "translation".data l with
    | some r => some r
    | none =>
      match tryLabel "context".data l with
      | some r => some r
      | none =>
        match tryLabel "note".data l with
        | some r => some r
        | none => tryLabel "analysis".data l

/-- The anchored, non-global replace of the label regex by the empty string. -/
def removeLabel (l : Str) : Str := (firstLabelHit l).getD l

/-- Global replace of `\*\*` by the empty string (left-to-right,
non-overlapping). -/
def removeStars : Str → Str
  | [] => []
  | [c] => [c]
  | c :: d :: rest =>
    if c = '*' && d = '*' then removeStars rest
    else c :: removeStars (d :: rest)

def waitPat : Str := ['w', 'a', 'i', 't', ',']

def noTermB (l : Str) : Bool := l.all fun c => !isLineTerm c

/-- Case-insensitive prefix test for an ASCII-lowercase pattern. -/
def ciPrefixB : Str → Str → Bool
  | [], _ => true
  | _ :: _, [] => false
  | a :: pat, b :: l => (b.toLower = a) && ciPrefixB pat l

/-- The regex `Wait,.*$` (flags `i`, no `m`, no `s`) matches at this position:
a case-insensitive `Wait,` whose entire remaining tail contains no line
terminator. -/
def waitMatchB (l : Str) : Bool := ciPrefixB waitPat l && noTermB (l.drop 5)

/-- Non-global replace of `Wait,.*$` (case-insensitive) by the empty string:
truncate at the leftmost position where the pattern matches. -/
def removeWaitAux : Str → Str
  | [] => []
  | c :: rest => if waitMatchB (c :: rest) then [] else c :: removeWaitAux rest

/-- Some position of the list matches `Wait,.*$`. -/
def waitOccB : Str → Bool
  | [] => false
  | c :: rest => waitMatchB (c :: rest) || waitOccB rest

/-- Index of the leftmost position matching `Wait,.*$`. -/
def firstWaitPos : Str → Option Nat
  | [] => none
  | c :: rest =>
    if waitMatchB (c :: rest) then some 0 else (firstWaitPos rest).map (· + 1)

def trimL (l : Str) : Str := l.dropWhile isJsSpace

def trimR (l : Str) : Str := (l.reverse.dropWhile isJsSpace).reverse

/-- `String.prototype.trim`. -/
def jsTrim (l : Str) : Str := trimR (trimL l)

/-- `cleanText` from `geminiService.ts`: the empty-input guard, then the four
regex replaces in source order, then `trim()`. -/
def cleanText (s : Str) : Str :=
  if s = [] then []
  else jsTrim (removeWaitAux (removeStars (removeLabel (removeParens s))))

/-- The list starts with `*`. -/
def headStar : Str → Bool
  | [] => false
  | c :: _ => c = '*'

/-- `**` occurs as a contiguous substring. -/
def hasStarPairB : Str → Bool
  | [] => false
  | c :: rest => (c = '*' && headStar rest) || hasStarPairB rest

/-! ### The JSON extractor `extractJSON`

Source (`geminiService.ts` lines 54-63): two global replaces removing the
code-fence tokens (` ```json ` plus optional newline, then ` ``` ` plus
optional newline), then the first match of `\{[\s\S]*\}` if any, else the
fence-stripped text. -/

/-- Global replace of three backticks + `json` + optional newline. -/
def stripFenceJson : Str → Str
  | '`' :: '`' :: '`' :: 'j' :: 's' :: 'o' :: 'n' :: '\n' :: rest => stripFenceJson rest
  | '`' :: '`' :: '`' :: 'j' :: 's' :: 'o' :: 'n' :: rest => stripFenceJson rest
  | c :: rest => c :: stripFenceJson rest
  | [] => []

/-- Global replace of three backticks + optional newline. -/
def stripFencePlain : Str → Str
  | '`' :: '`' :: '`' :: '\n' :: rest => stripFencePlain rest
  | '`' :: '`' :: '`' :: rest => stripFencePlain rest
  | c :: rest => c :: stripFencePlain rest
  | [] => []

def stripFences (l : Str) : Str := stripFencePlain (stripFenceJson l)

/-- Everything up to and including the last `}` of the list, when the list
contains one. -/
def lastBrace : Str → Option Str
  | [] => none
  | c :: rest =>
    match lastBrace rest with
    | some r => some (c :: r)
    | none => if c = '}' then some [c] else none

/-- First match of `\{[\s\S]*\}`: scan for a `{` that has some `}` after it;
the greedy `[\s\S]*` then extends to the last `}` of the remainder. -/
def braceScan : Str → Option Str
  | [] => none
  | c :: rest =>
    if c = '{' then
      match lastBrace rest with
      | some r => some ('{' :: r)
      | none => braceScan rest
    else braceScan rest

/-- `extractJSON` from `geminiService.ts`. -/
def extractJSON (t : Str) : Str :=
  match braceScan (stripFences t) with
  | some m => m
  | none => stripFences t

/-! ### Data model (`src/unnamed/part_001`, the `types` module)

`JSON.parse` output is cast, never validated, so `difficulty`, `category`
and the numeric fields carry whatever the model produced; we model the text
fields as `Str` and numbers as `Int`. -/

structure SpaceUtil where
  name : Str
  value : Int
deriving DecidableEq

structure ActionItem where
  id : Str
  title : Str
  description : Str
  difficulty : Str
  category : Str
deriving DecidableEq

structure RoomAnalysis where
  roomType : Str
  clutterLevel : Int
  spaceUtilization : List SpaceUtil
  summary : Str
  actionItems : List ActionItem
  aestheticSuggestions : List Str
deriving DecidableEq

/-! ### The analysis client `analyzeRoomImage` (post-processing and errors)

The network call and `JSON.parse` are opaque; `AnalysisOutcome` enumerates
their possible results as seen by the surrounding code: a successfully parsed
`RoomAnalysis`, an empty response text, a parse failure, or a thrown upstream
error carrying a message. -/

/-- Substring containment scan (JavaScript `String.prototype.includes`). -/
def plainPrefixB : Str → Str → Bool
  | [], _ => true
  | _ :: _, [] => false
  | a :: pat, b :: l => a = b && plainPrefixB pat l

def containsSub (sub : Str) : Str → Bool
  | [] => plainPrefixB sub []
  | c :: t => plainPrefixB sub (c :: t) || containsSub sub t

/-- The `catch` block of `analyzeRoomImage` (lines 171-200): substring checks
on the error text choose the user-facing message. -/
def classifyAnalysisError (msg : Str) : Str :=
  if containsSub "User location is not supported".data msg ||
     containsSub "FAILED_PRECONDITION".data msg ||
     containsSub "Region not supported".data msg ||
     containsSub "location is not supported".data msg ||
     (containsSub "400".data msg && containsSub "not supported".data msg) then
    "Gemini API недоступен в вашем регионе. Попробуйте использовать VPN (например, подключиться к серверу в США или Европе).".data
  else if containsSub "quota".data msg || containsSub "429".data msg then
    "Превышен лимит запросов к API. Попробуйте позже.".data
  else if containsSub "API_KEY".data msg || containsSub "invalid".data msg then
    "Неверный API ключ. Проверьте настройки в файле .env".data
  else
    "Не удалось проанализировать изображение. Попробуйте еще раз.".data

inductive AnalysisOutcome where
  | parsed : RoomAnalysis → AnalysisOutcome
  | empty : AnalysisOutcome
  | parseError : Str → AnalysisOutcome
  | apiError : Str → AnalysisOutcome

/-- The field-by-field sanitisation of the parsed analysis
(`geminiService.ts` lines 152-167). -/
def cleanAnalysis (raw : RoomAnalysis) : RoomAnalysis :=
  { raw with
    roomType := cleanText raw.roomType
    summary := cleanText raw.summary
    actionItems := raw.actionItems.map fun it =>
      { it with title := cleanText it.title, description := cleanText it.description }
    aestheticSuggestions := raw.aestheticSuggestions.map cleanText
    spaceUtilization := raw.spaceUtilization.map fun su =>
      { su with name := cleanText su.name } }

/-- `analyzeRoomImage` (lines 119-201): the credential guard throws outside
the `try`; an empty response text throws "Пустой ответ от модели" inside the
`try`, so like parse and upstream errors it is re-classified by the `catch`. -/
def analyzeRoomImage (keyConfigured : Bool) (outcome : AnalysisOutcome) :
    Except Str RoomAnalysis :=
  if keyConfigured = false then
    Except.error "API ключ не настроен. Создайте файл .env с VITE_API_KEY.".data
  else
    match outcome with
    | .parsed raw => Except.ok (cleanAnalysis raw)
    | .empty => Except.error (classifyAnalysisError "Пустой ответ от модели".data)
    | .parseError m => Except.error (classifyAnalysisError m)
    | .apiError m => Except.error (classifyAnalysisError m)

/-! ### The chat client `sendChatMessage` and the conversation state

`GeminiPart`/`GeminiContent` are the history types from the `types` module;
`WirePart`/`WireContent` are the request shapes built in `sendChatMessage`
(lines 220-247).  The upstream call is opaque; `ChatOutcome` enumerates its
results (a reply whose `text` may be absent or empty, or a thrown error). -/

structure InlineData where
  mimeType : String
  data : String
deriving DecidableEq

structure GeminiPart where
  text : Option String
  inlineData : Option InlineData
deriving DecidableEq

structure GeminiContent where
  role : String
  parts : List GeminiPart
deriving DecidableEq

inductive WirePart where
  | text : String → WirePart
  | inlineData : InlineData → WirePart
deriving DecidableEq

structure WireContent where
  role : String
  parts : List WirePart
deriving DecidableEq

structure WireRequest where
  model : String
  contents : List WireContent
deriving DecidableEq

/-- Part conversion (lines 222-226).  JavaScript truthiness: an empty `text`
string is falsy, so such a part falls through to the `inlineData` check and
then to the `{ text: "" }` default. -/
def convertPart (p : GeminiPart) : WirePart :=
  match p.text, p.inlineData with
  | some t, some d => if t = "" then .inlineData d else .text t
  | some t, none => .text t
  | none, some d => .inlineData d
  | none, none => .text ""

inductive ChatOutcome where
  | reply : Option String → ChatOutcome
  | threw : String → ChatOutcome

def keyMissingMsg : String := "Ошибка: API ключ не настроен"

def chatErrorMsg : String := "Произошла ошибка при обращении к AI. Попробуйте еще раз."

def emptyReplyMsg : String := "Извините, не удалось сгенерировать ответ."

/-- `sendChatMessage` (lines 209-263).  The returned pair is the result value
together with the request issued to the model, `none` when no request was
made.  The guard `if (base64Image)` is again a truthiness test. -/
def sendChatMessage (keyConfigured : Bool) (history : List GeminiContent)
    (newMessage : String) (base64Image : Option String) (outcome : ChatOutcome) :
    Except String String × Option WireRequest :=
  if keyConfigured = false then (Except.ok keyMissingMsg, none)
  else
    let contents := history.map fun msg => WireContent.mk msg.role (msg.parts.map convertPart)
    let newParts :=
      (match base64Image with
       | some img => if img = "" then [] else [WirePart.inlineData ⟨"image/jpeg", img⟩]
       | none => []) ++ [WirePart.text newMessage]
    let req : WireRequest := ⟨"gemini-2.0-flash", contents ++ [⟨"user", newParts⟩]⟩
    match outcome with
    | .reply t =>
      (Except.ok (match t with
        | some s => if s = "" then emptyReplyMsg else s
        | none => emptyReplyMsg), some req)
    | .threw _ => (Except.ok chatErrorMsg, some req)

/-- The seed exchange (`ChatInterface.tsx` lines 28-40). -/
def createInitialHistory (img : String) : List GeminiContent :=
  [ { role := "user",
      parts := [ { text := none, inlineData := some ⟨"image/jpeg", img⟩ },
                 { text := some "Вот фото комнаты, которую я хочу организовать.", inlineData := none } ] },
    { role := "model",
      parts := [ { text := some "Понял. Я проанализировал изображение и готов помочь вам навести порядок.", inlineData := none } ] } ]

/-- One `handleSend` round as it affects `historyRef` (lines 90-121): on a
resolved exchange both the user turn and the model turn are pushed; on a
rejected one nothing is pushed. -/
inductive ChatEvent where
  | success : String → String → ChatEvent
  | failure : String → ChatEvent

def stepHistory (h : List GeminiContent) : ChatEvent → List GeminiContent
  | .success m r =>
      h ++ [ { role := "user", parts := [{ text := some m, inlineData := none }] },
             { role := "model", parts := [{ text := some r, inlineData := none }] } ]
  | .failure _ => h

def runChat (img : String) (evs : List ChatEvent) : List GeminiContent :=
  evs.foldl stepHistory (createInitialHistory img)

def succCount (evs : List ChatEvent) : Nat :=
  evs.countP fun e => match e with | .success _ _ => true | .failure _ => false

/-- The role sequence the spec requires: alternating user/model starting with
user. -/
def rolePattern (n : Nat) : List String :=
  (List.range n).map fun i => if i % 2 = 0 then "user" else "model"

/-- Characters under which every `cleanText` pass other than the `Wait,`
truncation and the trim is the identity: no `(` (parenthetical rule), no `:`
(label rule), no `*` (bold rule), no line terminator (so that trimming cannot
expose a new `Wait,` match). -/
def safeCharB (c : Char) : Bool :=
  !(c = '(') && !(c = ':') && !(c = '*') && !isLineTerm c

/-- The spec reading of "convert history verbatim to the wire representation":
a part carries its text if it has text, else its inline data. -/
def verbatimPart (p : GeminiPart) : WirePart :=
  match p.text, p.inlineData with
  | some t, _ => .text t
  | none, some d => .inlineData d
  | none, none => .text ""

/-- A history part in the shape the spec describes: it does not carry both
text and inline data at once. -/
def wfPartB (p : GeminiPart) : Bool := !(p.text.isSome && p.inlineData.isSome)

/-! ## Generic helper lemmas -/

theorem dropWhile_after (p : Char → Bool) :
    ∀ l : Str, ∃ a, a ++ l.dropWhile p = l := by
  intro l
  induction l with
  | nil => exact ⟨[], rfl⟩
  | cons c rest ih =>
    cases hp : p c with
    | true =>
      obtain ⟨a, ha⟩ := ih
      exact ⟨c :: a, by simp [List.dropWhile, hp, ha]⟩
    | false => exact ⟨[], by simp [List.dropWhile, hp]⟩

theorem mem_of_dropWhile {p : Char → Bool} {l : Str} {c : Char}
    (h : c ∈ l.dropWhile p) : c ∈ l := by
  obtain ⟨a, ha⟩ := dropWhile_after p l
  rw [← ha]
  exact List.mem_append_right a h

theorem dropWhile_len_le (p : Char → Bool) (l : Str) :
    (l.dropWhile p).length ≤ l.length := by
  obtain ⟨a, ha⟩ := dropWhile_after p l
  calc (l.dropWhile p).length ≤ a.length + (l.dropWhile p).length := Nat.le_add_left _ _
  _ = l.length := by rw [← List.length_append, ha]

theorem dropWhile_self (p : Char → Bool) (l : Str) :
    (l.dropWhile p).dropWhile p = l.dropWhile p := by
  induction l with
  | nil => rfl
  | cons c rest ih =>
    cases hp : p c with
    | true => simpa [List.dropWhile, hp] using ih
    | false => simp [List.dropWhile, hp]

theorem mem_of_drop {l : Str} {n : Nat} {c : Char} (h : c ∈ l.drop n) : c ∈ l := by
  have := List.take_append_drop n l
  rw [← this]
  exact List.mem_append_right _ h

/-! ## Lemmas about the parenthetical-removal pass -/

theorem parenChunk_mem {l t : Str} (h : parenChunk l = some t) :
    ∀ c ∈ t, c ∈ l := by
  unfold parenChunk at h
  cases htw : l.takeWhile isParenClass with
  | nil => rw [htw] at h; simp at h
  | cons x xs =>
    rw [htw] at h
    cases hdw : l.dropWhile isParenClass with
    | nil => rw [hdw] at h; simp at h
    | cons y ys =>
      rw [hdw] at h
      by_cases hy : y = ')'
      · subst hy
        simp at h
        subst h
        intro c hc
        exact mem_of_dropWhile (p := isParenClass) (by rw [hdw]; exact List.mem_cons_of_mem _ hc)
      · simp [hy] at h

theorem parenChunk_len {l t : Str} (h : parenChunk l = some t) :
    t.length < l.length := by
  unfold parenChunk at h
  cases htw : l.takeWhile isParenClass with
  | nil => rw [htw] at h; simp at h
  | cons x xs =>
    rw [htw] at h
    cases hdw : l.dropWhile isParenClass with
    | nil => rw [hdw] at h; simp at h
    | cons y ys =>
      rw [hdw] at h
      by_cases hy : y = ')'
      · subst hy
        simp at h
        subst h
        have h1 : (l.dropWhile isParenClass).length ≤ l.length := dropWhile_len_le _ _
        rw [hdw] at h1
        simpa using Nat.lt_of_lt_of_le (Nat.lt_succ_self _) h1
      · simp [hy] at h

theorem removeParensF_id :
    ∀ (fuel : Nat) (l : Str), (∀ c ∈ l, c ≠ '(') → removeParensF fuel l = l := by
  intro fuel
  induction fuel with
  | zero => intro l _; cases l <;> rfl
  | succ n ih =>
    intro l h
    cases l with
    | nil => rfl
    | cons c rest =>
      have hc : ¬(c = '(') := h c (List.mem_cons_self c rest)
      simp only [removeParensF, if_neg hc]
      exact congrArg (c :: ·) (ih rest fun d hd => h d (List.mem_cons_of_mem _ hd))

theorem removeParensF_mem :
    ∀ (fuel : Nat) (l : Str) (c : Char), c ∈ removeParensF fuel l → c ∈ l := by
  intro fuel
  induction fuel with
  | zero => intro l c h; cases l <;> exact h
  | succ n ih =>
    intro l c h
    cases l with
    | nil => exact h
    | cons d rest =>
      by_cases hd : d = '('
      · subst hd
        simp only [removeParensF, if_pos rfl] at h
        cases hpc : parenChunk rest with
        | some tail =>
          rw [hpc] at h
          exact List.mem_cons_of_mem _ (parenChunk_mem hpc c (ih tail c h))
        | none =>
          rw [hpc] at h
          rcases List.mem_cons.mp h with h1 | h1
          · exact h1 ▸ List.mem_cons_self _ _
          · exact List.mem_cons_of_mem _ (ih rest c h1)
      · simp only [removeParensF, if_neg hd] at h
        rcases List.mem_cons.mp h with h1 | h1
        · exact h1 ▸ List.mem_cons_self _ _
        · exact List.mem_cons_of_mem _ (ih rest c h1)

theorem removeParens_id {l : Str} (h : ∀ c ∈ l, c ≠ '(') : removeParens l = l :=
  removeParensF_id l.length l h

theorem removeParens_mem {l : Str} {c : Char} (h : c ∈ removeParens l) : c ∈ l :=
  removeParensF_mem l.length l c h

/-! ## Lemmas about the label-removal pass -/

theorem ciStrip_mem : ∀ (pat l r : Str), ciStrip pat l = some r → ∀ c ∈ r, c ∈ l := by
  intro pat
  induction pat with
  | nil =>
    intro l r h c hc
    simp only [ciStrip, Option.some.injEq] at h
    exact h ▸ hc
  | cons a ps ih =>
    intro l r h c hc
    cases l with
    | nil => simp [ciStrip] at h
    | cons b bs =>
      by_cases hb : b.toLower = a
      · simp only [ciStrip, if_pos hb] at h
        exact List.mem_cons_of_mem _ (ih bs r h c hc)
      · simp [ciStrip, hb] at h

theorem tryLabel_mem {w l r : Str} (h : tryLabel w l = some r) : ∀ c ∈ r, c ∈ l := by
  unfold tryLabel at h
  cases hcs : ciStrip w l with
  | none => rw [hcs] at h; simp at h
  | some v =>
    rw [hcs] at h
    cases v with
    | nil => simp at h
    | cons y ys =>
      by_cases hy : y = ':'
      · subst hy
        simp at h
        subst h
        intro c hc
        exact ciStrip_mem w l _ hcs c (List.mem_cons_of_mem _ (mem_of_dropWhile hc))
      · simp [hy] at h

theorem tryLabel_colon {w l r : Str} (h : tryLabel w l = some r) : ':' ∈ l := by
  unfold tryLabel at h
  cases hcs : ciStrip w l with
  | none => rw [hcs] at h; simp at h
  | some v =>
    rw [hcs] at h
    cases v with
    | nil => simp at h
    | cons y ys =>
      by_cases hy : y = ':'
      · subst hy
        exact ciStrip_mem w l _ hcs ':' (List.mem_cons_self _ _)
      · simp [hy] at h

theorem firstLabelHit_mem {l r : Str} (h : firstLabelHit l = some r) : ∀ c ∈ r, c ∈ l := by
  unfold firstLabelHit at h
  cases h1 : tryLabel "description".data l with
  | some v =>
    rw [h1] at h
    obtain rfl : v = r := Option.some.inj h
    exact tryLabel_mem h1
  | none =>
  rw [h1] at h
  cases h2 : tryLabel "translation".data l with
  | some v =>
    rw [h2] at h
    obtain rfl : v = r := Option.some.inj h
    exact tryLabel_mem h2
  | none =>
  rw [h2] at h
  cases h3 : tryLabel "context".data l with
  | some v =>
    rw [h3] at h
    obtain rfl : v = r := Option.some.inj h
    exact tryLabel_mem h3
  | none =>
  rw [h3] at h
  cases h4 : tryLabel "note".data l with
  | some v =>
    rw [h4] at h
    obtain rfl : v = r := Option.some.inj h
    exact tryLabel_mem h4
  | none =>
  rw [h4] at h
  exact tryLabel_mem h

theorem firstLabelHit_colon {l r : Str} (h : firstLabelHit l = some r) : ':' ∈ l := by
  unfold firstLabelHit at h
  cases h1 : tryLabel "description".data l with
  | some v => exact tryLabel_colon h1
  | none =>
  rw [h1] at h
  cases h2 : tryLabel "translation".data l with
  | some v => exact tryLabel_colon h2
  | none =>
  rw [h2] at h
  cases h3 : tryLabel "context".data l with
  | some v => exact tryLabel_colon h3
  | none =>
  rw [h3] at h
  cases h4 : tryLabel "note".data l with
  | some v => exact tryLabel_colon h4
  | none =>
  rw [h4] at h
  exact tryLabel_colon h

theorem removeLabel_id {l : Str} (h : ':' ∉ l) : removeLabel l = l := by
  unfold removeLabel
  cases hf : firstLabelHit l with
  | none => rfl
  | some r => exact absurd (firstLabelHit_colon hf) h

theorem removeLabel_mem {l : Str} {c : Char} (h : c ∈ removeLabel l) : c ∈ l := by
  unfold removeLabel at h
  cases hf : firstLabelHit l with
  | none => rw [hf] at h; exact h
  | some r => rw [hf] at h; exact firstLabelHit_mem hf c h

/-! ## Lemmas about the bold-marker-removal pass -/

theorem removeStars_id : ∀ l : Str, (∀ c ∈ l, c ≠ '*') → removeStars l = l := by
  intro l
  induction l using removeStars.induct with
  | case1 => intro _; rfl
  | case2 c => intro _; rfl
  | case3 c d rest hcd _ =>
    intro h
    have hc : c = '*' := by simpa using (Bool.and_eq_true _ _).mp hcd |>.1
    exact absurd hc (h c (List.mem_cons_self _ _))
  | case4 c d rest hcd ih =>
    intro h
    rw [removeStars, if_neg hcd]
    exact congrArg (c :: ·) (ih fun e he => h e (List.mem_cons_of_mem _ he))

theorem removeStars_mem : ∀ (l : Str) (c : Char), c ∈ removeStars l → c ∈ l := by
  intro l
  induction l using removeStars.induct with
  | case1 => intro c h; exact h
  | case2 d => intro c h; exact h
  | case3 c d rest hcd ih =>
    intro e h
    rw [removeStars, if_pos hcd] at h
    exact List.mem_cons_of_mem _ (List.mem_cons_of_mem _ (ih e h))
  | case4 c d rest hcd ih =>
    intro e h
    rw [removeStars, if_neg hcd] at h
    rcases List.mem_cons.mp h with h1 | h1
    · exact h1 ▸ List.mem_cons_self _ _
    · exact List.mem_cons_of_mem _ (ih e h1)

theorem headStar_removeStars :
    ∀ l : Str, headStar l = false → headStar (removeStars l) = false := by
  intro l
  induction l using removeStars.induct with
  | case1 => intro _; rfl
  | case2 c => intro h; exact h
  | case3 c d rest hcd _ =>
    intro h
    have hc : c = '*' := by simpa using (Bool.and_eq_true _ _).mp hcd |>.1
    simp [headStar, hc] at h
  | case4 c d rest hcd _ =>
    intro h
    rw [removeStars, if_neg hcd]
    simpa [headStar] using h

theorem hasStarPair_removeStars : ∀ l : Str, hasStarPairB (removeStars l) = false := by
  intro l
  induction l using removeStars.induct with
  | case1 => rfl
  | case2 c => simp [removeStars, hasStarPairB, headStar]
  | case3 c d rest hcd ih => rw [removeStars, if_pos hcd]; exact ih
  | case4 c d rest hcd ih =>
    rw [removeStars, if_neg hcd, hasStarPairB, ih]
    cases hc : (decide (c = '*') : Bool) with
    | false => simp [hc]
    | true =>
      have hd : headStar (d :: rest) = false := by
        simp only [Bool.and_eq_true, not_and] at hcd
        simp [headStar, hcd hc]
      rw [headStar_removeStars _ hd]
      simp

theorem headStar_append {r b : Str} (h : r ≠ []) : headStar (r ++ b) = headStar r := by
  cases r with
  | nil => exact absurd rfl h
  | cons c t => rfl

theorem hasStarPair_append {m : Str} (b : Str) (h : hasStarPairB m = true) :
    hasStarPairB (m ++ b) = true := by
  induction m with
  | nil => simp [hasStarPairB] at h
  | cons c r ih =>
    rw [hasStarPairB, Bool.or_eq_true] at h
    rcases h with h1 | h1
    · rw [Bool.and_eq_true] at h1
      have hr : r ≠ [] := by
        intro he
        rw [he] at h1
        simp [headStar] at h1
      show hasStarPairB (c :: (r ++ b)) = true
      rw [hasStarPairB, headStar_append hr, h1.1, h1.2]
      simp
    · show hasStarPairB (c :: (r ++ b)) = true
      rw [hasStarPairB, ih h1]
      simp

theorem hasStarPair_cons {t : Str} (c : Char) (h : hasStarPairB t = true) :
    hasStarPairB (c :: t) = true := by
  rw [hasStarPairB, h]
  simp

theorem hasStarPair_mid {m : Str} (a b : Str) (h : hasStarPairB m = true) :
    hasStarPairB (a ++ m ++ b) = true := by
  induction a with
  | nil => simpa using hasStarPair_append b h
  | cons c t ih => simpa using hasStarPair_cons c (by simpa using ih)

/-! ## Lemmas about the `Wait,` truncation pass -/

theorem removeWaitAux_after : ∀ l : Str, ∃ t, removeWaitAux l ++ t = l := by
  intro l
  induction l with
  | nil => exact ⟨[], rfl⟩
  | cons c rest ih =>
    by_cases hm : waitMatchB (c :: rest) = true
    · exact ⟨c :: rest, by rw [removeWaitAux, if_pos hm]; rfl⟩
    · obtain ⟨t, ht⟩ := ih
      exact ⟨t, by rw [removeWaitAux, if_neg hm]; simpa using congrArg (c :: ·) ht⟩

theorem removeWaitAux_mem {l : Str} {c : Char} (h : c ∈ removeWaitAux l) : c ∈ l := by
  obtain ⟨t, ht⟩ := removeWaitAux_after l
  rw [← ht]
  exact List.mem_append_left t h

theorem ciPrefixB_append {pat : Str} :
    ∀ {a : Str} (t : Str), ciPrefixB pat a = true → ciPrefixB pat (a ++ t) = true := by
  induction pat with
  | nil => intro a t _; rfl
  | cons x ps ih =>
    intro a t h
    cases a with
    | nil => simp [ciPrefixB] at h
    | cons b bs =>
      rw [ciPrefixB, Bool.and_eq_true] at h
      show ciPrefixB (x :: ps) (b :: (bs ++ t)) = true
      rw [ciPrefixB, h.1, ih t h.2]
      simp

theorem noTermB_of_mem_imp {l₁ l₂ : Str} (hsub : ∀ c, c ∈ l₁ → c ∈ l₂)
    (h : noTermB l₂ = true) : noTermB l₁ = true := by
  rw [noTermB, List.all_eq_true] at h ⊢
  exact fun c hc => h c (hsub c hc)

theorem noTermB_drop {l : Str} (n : Nat) (h : noTermB l = true) :
    noTermB (l.drop n) = true :=
  noTermB_of_mem_imp (fun _ hc => mem_of_drop hc) h

theorem noTermB_tail {c : Char} {l : Str} (h : noTermB (c :: l) = true) :
    noTermB l = true := by
  rw [noTermB, List.all_cons, Bool.and_eq_true] at h
  exact h.2

theorem waitOcc_removeWaitAux : ∀ l : Str, noTermB l = true →
    waitOccB (removeWaitAux l) = false := by
  intro l
  induction l with
  | nil => intro _; rfl
  | cons c rest ih =>
    intro hT
    by_cases hm : waitMatchB (c :: rest) = true
    · rw [removeWaitAux, if_pos hm]; rfl
    · rw [removeWaitAux, if_neg hm, waitOccB, ih (noTermB_tail hT), Bool.or_false]
      cases hw : waitMatchB (c :: removeWaitAux rest) with
      | false => rfl
      | true =>
        exfalso
        rw [waitMatchB, Bool.and_eq_true] at hw
        obtain ⟨t, ht⟩ := removeWaitAux_after rest
        have hp : ciPrefixB waitPat (c :: rest) = true := by
          have := ciPrefixB_append t hw.1
          rwa [show (c :: removeWaitAux rest) ++ t = c :: rest by
            simpa using congrArg (c :: ·) ht] at this
        exact hm (by rw [waitMatchB, hp, noTermB_drop 5 hT]; rfl)

theorem waitOcc_append {m : Str} (b : Str) (hocc : waitOccB m = true)
    (hT : noTermB (m ++ b) = true) : waitOccB (m ++ b) = true := by
  induction m with
  | nil => simp [waitOccB] at hocc
  | cons c r ih =>
    rw [waitOccB, Bool.or_eq_true] at hocc
    show waitOccB (c :: (r ++ b)) = true
    rw [waitOccB, Bool.or_eq_true]
    rcases hocc with h1 | h1
    · left
      rw [waitMatchB, Bool.and_eq_true] at h1 ⊢
      constructor
      · exact ciPrefixB_append b h1.1
      · exact noTermB_drop 5 (by simpa using hT)
    · right
      exact ih h1 (noTermB_tail (by simpa using hT))

theorem waitOcc_cons {t : Str} (c : Char) (h : waitOccB t = true) :
    waitOccB (c :: t) = true := by
  rw [waitOccB, h]
  simp

theorem waitOcc_mid {m : Str} (a b : Str) (hocc : waitOccB m = true)
    (hT : noTermB (a ++ m ++ b) = true) : waitOccB (a ++ m ++ b) = true := by
  induction a with
  | nil => simpa using waitOcc_append b hocc (by simpa using hT)
  | cons c t ih =>
    have : waitOccB (t ++ m ++ b) = true := ih (noTermB_tail (by simpa using hT))
    simpa using waitOcc_cons c (by simpa using this)

theorem removeWaitAux_id : ∀ l : Str, waitOccB l = false → removeWaitAux l = l := by
  intro l
  induction l with
  | nil => intro _; rfl
  | cons c rest ih =>
    intro h
    rw [waitOccB, Bool.or_eq_false_iff] at h
    rw [removeWaitAux, if_neg (by rw [h.1]; exact Bool.false_ne_true), ih h.2]

/-! ## Lemmas about `trim` -/

theorem trimL_after (l : Str) : ∃ a, a ++ trimL l = l := dropWhile_after _ l

theorem trimR_before (l : Str) : ∃ b, trimR l ++ b = l := by
  obtain ⟨a, ha⟩ := dropWhile_after isJsSpace l.reverse
  refine ⟨a.reverse, ?_⟩
  have := congrArg List.reverse ha
  rw [List.reverse_append, List.reverse_reverse] at this
  exact this

theorem jsTrim_mid (l : Str) : ∃ a b, a ++ jsTrim l ++ b = l := by
  obtain ⟨a, ha⟩ := trimL_after l
  obtain ⟨b, hb⟩ := trimR_before (trimL l)
  exact ⟨a, b, by rw [jsTrim, List.append_assoc, hb, ha]⟩

theorem jsTrim_mem {l : Str} {c : Char} (h : c ∈ jsTrim l) : c ∈ l := by
  obtain ⟨a, b, hab⟩ := jsTrim_mid l
  rw [← hab]
  exact List.mem_append_left b (List.mem_append_right a h)

theorem trimL_trimL (l : Str) : trimL (trimL l) = trimL l := dropWhile_self _ l

theorem trimR_trimR (l : Str) : trimR (trimR l) = trimR l := by
  rw [trimR, trimR, List.reverse_reverse, dropWhile_self]

theorem trimL_head {c : Char} {t : Str} (h : isJsSpace c = false) :
    trimL (c :: t) = c :: t := by
  simp [trimL, List.dropWhile, h]

theorem trimL_of_trimL {x : Str} (h : trimL x = x) : trimL (trimR x) = trimR x := by
  obtain ⟨b, hb⟩ := trimR_before x
  cases hx : trimR x with
  | nil => rfl
  | cons c y =>
    have hcx : x = c :: (y ++ b) := by rw [← hb, hx]; rfl
    have hc : isJsSpace c = false := by
      cases hc : isJsSpace c with
      | false => rfl
      | true =>
        exfalso
        have h1 : trimL x = trimL (y ++ b) := by
          rw [hcx]
          simp [trimL, List.dropWhile, hc]
        have h2 : (trimL (y ++ b)).length ≤ (y ++ b).length := dropWhile_len_le _ _
        rw [← h1, h] at h2
        rw [hcx] at h2
        simp at h2
    exact trimL_head hc

theorem jsTrim_jsTrim (l : Str) : jsTrim (jsTrim l) = jsTrim l := by
  rw [jsTrim, jsTrim, trimL_of_trimL (trimL_trimL l), trimR_trimR]

/-! ## Lemmas about the full sanitizer -/

theorem cleanText_mem {s : Str} {c : Char} (h : c ∈ cleanText s) : c ∈ s := by
  rw [cleanText] at h
  by_cases hs : s = []
  · rw [if_pos hs] at h; simp at h
  · rw [if_neg hs] at h
    exact removeParens_mem (removeLabel_mem (removeStars_mem _ c
      (removeWaitAux_mem (jsTrim_mem h))))

theorem hasStarPair_cleanText (s : Str) : hasStarPairB (cleanText s) = false := by
  rw [cleanText]
  by_cases hs : s = []
  · rw [if_pos hs]; rfl
  · rw [if_neg hs]
    have h3 : hasStarPairB (removeStars (removeLabel (removeParens s))) = false :=
      hasStarPair_removeStars _
    obtain ⟨t, ht⟩ := removeWaitAux_after (removeStars (removeLabel (removeParens s)))
    have h4 : hasStarPairB (removeWaitAux (removeStars (removeLabel (removeParens s)))) = false := by
      cases hw : hasStarPairB (removeWaitAux (removeStars (removeLabel (removeParens s)))) with
      | false => rfl
      | true =>
        exfalso
        have := hasStarPair_append t hw
        rw [ht, h3] at this
        exact Bool.false_ne_true this
    obtain ⟨a, b, hab⟩ := jsTrim_mid (removeWaitAux (removeStars (removeLabel (removeParens s))))
    cases hy : hasStarPairB (jsTrim (removeWaitAux (removeStars (removeLabel (removeParens s))))) with
    | false => rfl
    | true =>
      exfalso
      have := hasStarPair_mid a b hy
      rw [hab, h4] at this
      exact Bool.false_ne_true this

theorem waitOcc_cleanText {s : Str} (hT : noTermB s = true) :
    waitOccB (cleanText s) = false := by
  rw [cleanText]
  by_cases hs : s = []
  · rw [if_pos hs]; rfl
  · rw [if_neg hs]
    have hTu : noTermB (removeStars (removeLabel (removeParens s))) = true :=
      noTermB_of_mem_imp (fun c hc =>
        removeParens_mem (removeLabel_mem (removeStars_mem _ c hc))) hT
    have h1 : waitOccB (removeWaitAux (removeStars (removeLabel (removeParens s)))) = false :=
      waitOcc_removeWaitAux _ hTu
    have hTw : noTermB (removeWaitAux (removeStars (removeLabel (removeParens s)))) = true :=
      noTermB_of_mem_imp (fun _ hc => removeWaitAux_mem hc) hTu
    obtain ⟨a, b, hab⟩ := jsTrim_mid (removeWaitAux (removeStars (removeLabel (removeParens s))))
    cases hy : waitOccB (jsTrim (removeWaitAux (removeStars (removeLabel (removeParens s))))) with
    | false => rfl
    | true =>
      exfalso
      have := waitOcc_mid a b hy (by rw [hab]; exact hTw)
      rw [hab, h1] at this
      exact Bool.false_ne_true this

theorem safeCharB_spec {c : Char} (h : safeCharB c = true) :
    c ≠ '(' ∧ c ≠ ':' ∧ c ≠ '*' ∧ isLineTerm c = false := by
  rw [safeCharB] at h
  simp only [Bool.and_eq_true, Bool.not_eq_true', decide_eq_false_iff_not] at h
  exact ⟨h.1.1.1, h.1.1.2, h.1.2, h.2⟩

theorem cleanText_idem {s : Str} (h : s.all safeCharB = true) :
    cleanText (cleanText s) = cleanText s := by
  have hsafe : ∀ c ∈ s, safeCharB c = true := List.all_eq_true.mp h
  by_cases hs : s = []
  · subst hs; rfl
  · have hpar : removeParens s = s :=
      removeParens_id fun c hc => (safeCharB_spec (hsafe c hc)).1
    have hlab : removeLabel s = s :=
      removeLabel_id fun hc => (safeCharB_spec (hsafe ':' hc)).2.1 rfl
    have hstar : removeStars s = s :=
      removeStars_id s fun c hc => (safeCharB_spec (hsafe c hc)).2.2.1
    have hT : noTermB s = true := by
      rw [noTermB, List.all_eq_true]
      intro c hc
      rw [(safeCharB_spec (hsafe c hc)).2.2.2]
      rfl
    have hcs : cleanText s = jsTrim (removeWaitAux s) := by
      rw [cleanText, if_neg hs, hpar, hlab, hstar]
    rw [hcs]
    by_cases hy : jsTrim (removeWaitAux s) = []
    · rw [hy]; rfl
    · have hysub : ∀ c, c ∈ jsTrim (removeWaitAux s) → c ∈ s :=
        fun c hc => removeWaitAux_mem (jsTrim_mem hc)
      have hpary : removeParens (jsTrim (removeWaitAux s)) = jsTrim (removeWaitAux s) :=
        removeParens_id fun c hc => (safeCharB_spec (hsafe c (hysub c hc))).1
      have hlaby : removeLabel (jsTrim (removeWaitAux s)) = jsTrim (removeWaitAux s) :=
        removeLabel_id fun hc => (safeCharB_spec (hsafe ':' (hysub ':' hc))).2.1 rfl
      have hstary : removeStars (jsTrim (removeWaitAux s)) = jsTrim (removeWaitAux s) :=
        removeStars_id _ fun c hc => (safeCharB_spec (hsafe c (hysub c hc))).2.2.1
      have h1 : waitOccB (removeWaitAux s) = false := waitOcc_removeWaitAux s hT
      have hTw : noTermB (removeWaitAux s) = true :=
        noTermB_of_mem_imp (fun _ hc => removeWaitAux_mem hc) hT
      have hwy : waitOccB (jsTrim (removeWaitAux s)) = false := by
        obtain ⟨a, b, hab⟩ := jsTrim_mid (removeWaitAux s)
        cases hocc : waitOccB (jsTrim (removeWaitAux s)) with
        | false => rfl
        | true =>
          exfalso
          have := waitOcc_mid a b hocc (by rw [hab]; exact hTw)
          rw [hab, h1] at this
          exact Bool.false_ne_true this
      have hrw : removeWaitAux (jsTrim (removeWaitAux s)) = jsTrim (removeWaitAux s) :=
        removeWaitAux_id _ hwy
      rw [cleanText, if_neg hy, hpary, hlaby, hstary, hrw, jsTrim_jsTrim]

/-! ## Characterisation of the `Wait,` truncation position -/

theorem firstWaitPos_none {s : Str} (h : firstWaitPos s = none) :
    removeWaitAux s = s := by
  induction s with
  | nil => rfl
  | cons c rest ih =>
    rw [firstWaitPos] at h
    by_cases hm : waitMatchB (c :: rest) = true
    · rw [if_pos hm] at h; simp at h
    · rw [if_neg hm] at h
      have hrest : firstWaitPos rest = none := by
        cases hf : firstWaitPos rest with
        | none => rfl
        | some i => rw [hf] at h; simp at h
      rw [removeWaitAux, if_neg hm, ih hrest]

theorem firstWaitPos_some : ∀ (s : Str) (i : Nat), firstWaitPos s = some i →
    removeWaitAux s = s.take i ∧ waitMatchB (s.drop i) = true ∧
    ∀ j, j < i → waitMatchB (s.drop j) = false := by
  intro s
  induction s with
  | nil => intro i h; simp [firstWaitPos] at h
  | cons c rest ih =>
    intro i h
    rw [firstWaitPos] at h
    by_cases hm : waitMatchB (c :: rest) = true
    · rw [if_pos hm] at h
      obtain rfl : (0 : Nat) = i := Option.some.inj h
      refine ⟨by rw [removeWaitAux, if_pos hm]; rfl, by simpa using hm, ?_⟩
      intro j hj
      omega
    · rw [if_neg hm] at h
      cases hf : firstWaitPos rest with
      | none => rw [hf] at h; simp at h
      | some n =>
        rw [hf] at h
        simp at h
        subst h
        obtain ⟨h1, h2, h3⟩ := ih n hf
        have hmf : waitMatchB (c :: rest) = false := by
          cases hb : waitMatchB (c :: rest) with
          | false => rfl
          | true => exact absurd hb hm
        refine ⟨?_, ?_, ?_⟩
        · rw [removeWaitAux, if_neg hm, h1]; rfl
        · simpa using h2
        · intro j hj
          cases j with
          | zero => simpa using hmf
          | succ j' => simpa using h3 j' (by omega)

/-! ## Lemmas about the JSON extractor -/

theorem lastBrace_none_of {l : Str} (h : '}' ∉ l) : lastBrace l = none := by
  induction l with
  | nil => rfl
  | cons c rest ih =>
    have hc : ¬(c = '}') := fun he => h (he ▸ List.mem_cons_self c rest)
    have hr : '}' ∉ rest := fun hm => h (List.mem_cons_of_mem _ hm)
    rw [lastBrace, ih hr, if_neg hc]

theorem lastBrace_last {m b : Str} (hb : '}' ∉ b) :
    lastBrace (m ++ '}' :: b) = some (m ++ ['}']) := by
  induction m with
  | nil =>
    show lastBrace ('}' :: b) = some ['}']
    rw [lastBrace, lastBrace_none_of hb]
    rfl
  | cons x m' ih =>
    show lastBrace (x :: (m' ++ '}' :: b)) = some (x :: (m' ++ ['}']))
    rw [lastBrace, ih]

theorem braceScan_none_of_no_open {l : Str} (h : '{' ∉ l) : braceScan l = none := by
  induction l with
  | nil => rfl
  | cons c rest ih =>
    have hc : ¬(c = '{') := fun he => h (he ▸ List.mem_cons_self c rest)
    have hr : '{' ∉ rest := fun hm => h (List.mem_cons_of_mem _ hm)
    rw [braceScan, if_neg hc, ih hr]

theorem braceScan_none_of_no_close {l : Str} (h : '}' ∉ l) : braceScan l = none := by
  induction l with
  | nil => rfl
  | cons c rest ih =>
    have hr : '}' ∉ rest := fun hm => h (List.mem_cons_of_mem _ hm)
    by_cases hc : c = '{'
    · rw [braceScan, if_pos hc, lastBrace_none_of hr]
      exact ih hr
    · rw [braceScan, if_neg hc]
      exact ih hr

theorem braceScan_skip {a : Str} (l : Str) (h : '{' ∉ a) :
    braceScan (a ++ l) = braceScan l := by
  induction a with
  | nil => rfl
  | cons c a' ih =>
    have hc : ¬(c = '{') := fun he => h (he ▸ List.mem_cons_self c a')
    have ha : '{' ∉ a' := fun hm => h (List.mem_cons_of_mem _ hm)
    show braceScan (c :: (a' ++ l)) = braceScan l
    rw [braceScan, if_neg hc, ih ha]

/-! ## Lemmas about the conversation state -/

theorem rolePattern_add_two {n : Nat} (h : n % 2 = 0) :
    rolePattern (n + 2) = rolePattern n ++ ["user", "model"] := by
  have h1 : (n + 1) % 2 ≠ 0 := by omega
  rw [rolePattern, rolePattern, show n + 2 = (n + 1) + 1 from rfl,
    List.range_succ, List.range_succ]
  rw [List.map_append, List.map_append]
  simp [h, h1]

theorem chat_invariant : ∀ (evs : List ChatEvent) (h : List GeminiContent),
    h.length % 2 = 0 → h.map (fun c => c.role) = rolePattern h.length →
    (evs.foldl stepHistory h).length = h.length + 2 * succCount evs ∧
    (evs.foldl stepHistory h).map (fun c => c.role) =
      rolePattern ((evs.foldl stepHistory h).length) ∧
    (evs.foldl stepHistory h).length % 2 = 0 := by
  intro evs
  induction evs with
  | nil =>
    intro h h0 h1
    exact ⟨by simp [succCount], h1, h0⟩
  | cons e evs' ih =>
    intro h h0 h1
    cases e with
    | failure msg =>
      have hstep : stepHistory h (ChatEvent.failure msg) = h := rfl
      have hcount : succCount (ChatEvent.failure msg :: evs') = succCount evs' := by
        simp [succCount, List.countP_cons]
      have := ih h h0 h1
      refine ⟨?_, this.2.1, this.2.2⟩
      show (evs'.foldl stepHistory (stepHistory h (ChatEvent.failure msg))).length = _
      rw [hstep, hcount]
      exact this.1
    | success m r =>
      have hlen : (stepHistory h (ChatEvent.success m r)).length = h.length + 2 := by
        simp [stepHistory]
      have heven : (stepHistory h (ChatEvent.success m r)).length % 2 = 0 := by
        rw [hlen]; omega
      have hmap : (stepHistory h (ChatEvent.success m r)).map (fun c => c.role) =
          rolePattern ((stepHistory h (ChatEvent.success m r)).length) := by
        rw [hlen, rolePattern_add_two h0, stepHistory, List.map_append, h1]
        rfl
      have hcount : succCount (ChatEvent.success m r :: evs') = succCount evs' + 1 := by
        simp [succCount, List.countP_cons]
      obtain ⟨ha, hb, hc⟩ := ih (stepHistory h (ChatEvent.success m r)) heven hmap
      refine ⟨?_, hb, hc⟩
      show (evs'.foldl stepHistory (stepHistory h (ChatEvent.success m r))).length = _
      rw [ha, hlen, hcount]
      omega

theorem chat_append_only : ∀ (evs : List ChatEvent) (h : List GeminiContent),
    ∃ t, h ++ t = evs.foldl stepHistory h := by
  intro evs
  induction evs with
  | nil => intro h; exact ⟨[], List.append_nil h⟩
  | cons e evs' ih =>
    intro h
    obtain ⟨t, ht⟩ := ih (stepHistory h e)
    cases e with
    | success m r =>
      refine ⟨[{ role := "user", parts := [{ text := some m, inlineData := none }] },
               { role := "model", parts := [{ text := some r, inlineData := none }] }] ++ t, ?_⟩
      rw [← List.append_assoc]
      exact ht
    | failure msg => exact ⟨t, ht⟩

/-! ## Lemmas about the chat client -/

theorem convertPart_eq_verbatim {p : GeminiPart} (h : wfPartB p = true) :
    convertPart p = verbatimPart p := by
  obtain ⟨txt, inl⟩ := p
  cases txt with
  | none => cases inl <;> rfl
  | some t =>
    cases inl with
    | none => rfl
    | some d => simp [wfPartB] at h

theorem sendChat_req (history : List GeminiContent) (m : String) (img : Option String)
    (out : ChatOutcome) :
    (sendChatMessage true history m img out).2 = some ⟨"gemini-2.0-flash",
      history.map (fun msg => ⟨msg.role, msg.parts.map convertPart⟩) ++
      [⟨"user", (match img with
        | some i => if i = "" then [] else [WirePart.inlineData ⟨"image/jpeg", i⟩]
        | none => []) ++ [WirePart.text m]⟩]⟩ := by
  cases out <;> rfl

/-! ## The claims -/

/-- C1 (amended): for every parsed analysis, `analyzeRoomImage` returns the
result of applying the sanitizer to every free-text field (`roomType`,
`summary`, each action item title/description, each aesthetic suggestion,
each space-utilization name); no sanitized field contains an unmatched `**`;
the operation yields either a fully sanitized analysis or an error, never a
partial result.  The `Wait,` guarantee only holds for raw fields containing
no line terminator: the truncation regex is anchored at end of string, so
trimming a trailing terminator can leave an unresolved `Wait,` tail
(see the counterexample). -/
theorem claim1_analysis_sanitized (raw : RoomAnalysis) :
    analyzeRoomImage true (AnalysisOutcome.parsed raw) = Except.ok (cleanAnalysis raw) ∧
    (cleanAnalysis raw).roomType = cleanText raw.roomType ∧
    (cleanAnalysis raw).summary = cleanText raw.summary ∧
    (cleanAnalysis raw).actionItems = raw.actionItems.map (fun it =>
      { it with title := cleanText it.title, description := cleanText it.description }) ∧
    (cleanAnalysis raw).aestheticSuggestions = raw.aestheticSuggestions.map cleanText ∧
    (cleanAnalysis raw).spaceUtilization = raw.spaceUtilization.map (fun su =>
      { su with name := cleanText su.name }) ∧
    (∀ s : Str, hasStarPairB (cleanText s) = false) ∧
    (∀ s : Str, noTermB s = true → waitOccB (cleanText s) = false) ∧
    (∀ (k : Bool) (o : AnalysisOutcome),
      (∃ r, analyzeRoomImage k o = Except.ok (cleanAnalysis r)) ∨
      (∃ e, analyzeRoomImage k o = Except.error e)) := by
  refine ⟨rfl, rfl, rfl, rfl, rfl, rfl, hasStarPair_cleanText,
    fun s h => waitOcc_cleanText h, ?_⟩
  intro k o
  cases k with
  | false => exact Or.inr ⟨_, rfl⟩
  | true =>
    cases o with
    | parsed r => exact Or.inl ⟨r, rfl⟩
    | empty => exact Or.inr ⟨_, rfl⟩
    | parseError m => exact Or.inr ⟨_, rfl⟩
    | apiError m => exact Or.inr ⟨_, rfl⟩

/-- C1 counterexample: a parsed analysis whose summary is
`"Wait, плохо \n"` is returned with summary `"Wait, плохо"`, which still
matches the truncation pattern `Wait,.*$` — an unresolved `Wait,` suffix in a
returned field, contradicting the claim as stated. -/
theorem claim1_cx :
    analyzeRoomImage true (AnalysisOutcome.parsed
        ⟨"Спальня".data, 10, [], "Wait, плохо \n".data, [], []⟩) =
      Except.ok (cleanAnalysis ⟨"Спальня".data, 10, [], "Wait, плохо \n".data, [], []⟩) ∧
    (cleanAnalysis ⟨"Спальня".data, 10, [], "Wait, плохо \n".data, [], []⟩).summary =
      "Wait, плохо".data ∧
    waitOccB (cleanAnalysis ⟨"Спальня".data, 10, [], "Wait, плохо \n".data, [], []⟩).summary =
      true :=
  ⟨rfl, by decide, by decide⟩

/-- C1 witness: the theorem applied at a concrete parsed analysis, and its
terminator-free `Wait,` clause discharged at a concrete field text. -/
theorem claim1_w :
    analyzeRoomImage true (AnalysisOutcome.parsed
        ⟨"Спальня".data, 10, [], "чисто".data, [], []⟩) =
      Except.ok (cleanAnalysis ⟨"Спальня".data, 10, [], "чисто".data, [], []⟩) ∧
    waitOccB (cleanText "План хорош wait, или нет".data) = false :=
  ⟨(claim1_analysis_sanitized ⟨"Спальня".data, 10, [], "чисто".data, [], []⟩).1,
   (claim1_analysis_sanitized ⟨"Спальня".data, 10, [], "чисто".data, [], []⟩).2.2.2.2.2.2.2.1
     "План хорош wait, или нет".data (by decide)⟩

/-- C2: `sendChatMessage` never propagates an error: for every configuration,
history, message, optional image and upstream outcome the first component is
an `ok` string; a thrown upstream error becomes the fixed fallback string and
a missing credential becomes the fixed configuration string, both as normal
results. -/
theorem claim2_chat_never_errors (key : Bool) (h : List GeminiContent) (m : String)
    (img : Option String) (out : ChatOutcome) :
    (∃ s, (sendChatMessage key h m img out).1 = Except.ok s) ∧
    (∀ e, (sendChatMessage true h m img (ChatOutcome.threw e)).1 = Except.ok chatErrorMsg) ∧
    (∀ o, (sendChatMessage false h m img o).1 = Except.ok keyMissingMsg) := by
  refine ⟨?_, fun e => rfl, fun o => rfl⟩
  cases key with
  | false => exact ⟨keyMissingMsg, rfl⟩
  | true =>
    cases out with
    | threw e => exact ⟨chatErrorMsg, rfl⟩
    | reply t =>
      cases t with
      | none => exact ⟨emptyReplyMsg, rfl⟩
      | some s =>
        by_cases hs : s = ""
        · subst hs; exact ⟨emptyReplyMsg, rfl⟩
        · exact ⟨s, by simp [sendChatMessage, hs]⟩

/-- C3 (amended): `analyzeRoomImage` passes `clutterLevel` through from the
parsed response without validation, so the returned value is in `[0,100]`
exactly when the model produced a value in range; the code enforces no bound
(see the counterexample). -/
theorem claim3_clutter_passthrough (raw : RoomAnalysis) :
    analyzeRoomImage true (AnalysisOutcome.parsed raw) = Except.ok (cleanAnalysis raw) ∧
    (cleanAnalysis raw).clutterLevel = raw.clutterLevel ∧
    ((0 ≤ (cleanAnalysis raw).clutterLevel ∧ (cleanAnalysis raw).clutterLevel ≤ 100) ↔
      (0 ≤ raw.clutterLevel ∧ raw.clutterLevel ≤ 100)) :=
  ⟨rfl, rfl, Iff.rfl⟩

/-- C3 counterexample: a parsed analysis with `clutterLevel = 150` is
returned unchanged, so the returned analysis violates the claimed invariant
`clutterLevel ∈ [0,100]`. -/
theorem claim3_cx :
    analyzeRoomImage true (AnalysisOutcome.parsed
        ⟨"Кухня".data, 150, [], "бардак".data, [], []⟩) =
      Except.ok (cleanAnalysis ⟨"Кухня".data, 150, [], "бардак".data, [], []⟩) ∧
    ¬(0 ≤ (cleanAnalysis ⟨"Кухня".data, 150, [], "бардак".data, [], []⟩).clutterLevel ∧
      (cleanAnalysis ⟨"Кухня".data, 150, [], "бардак".data, [], []⟩).clutterLevel ≤ 100) :=
  ⟨rfl, by decide⟩

/-- C4 (amended): the sanitizer is idempotent on inputs that contain no `(`,
no `:`, no `*` and no line terminator; on general inputs idempotence fails
(see the counterexample) because parenthetical removal can create a new
parenthetical group, label removal can expose a second label, and trimming
can expose a new `Wait,` match. -/
theorem claim4_idem_safe (s : Str) (h : s.all safeCharB = true) :
    cleanText (cleanText s) = cleanText s :=
  cleanText_idem h

/-- C4 counterexample: `cleanText "((a)b)" = "(b)"` (removing the inner group
creates a fresh one), and a second application removes `"(b)"` as well, so
`cleanText` is not idempotent. -/
theorem claim4_cx :
    cleanText (cleanText "((a)b)".data) ≠ cleanText "((a)b)".data := by
  decide

/-- C4 witness: the amended idempotence applied at a concrete safe input. -/
theorem claim4_w :
    ("Привет wait, мир".data).all safeCharB = true ∧
    cleanText (cleanText "Привет wait, мир".data) = cleanText "Привет wait, мир".data :=
  ⟨by decide, claim4_idem_safe "Привет wait, мир".data (by decide)⟩

/-- C5 (amended): the truncation step of the sanitizer removes, from the
leftmost case-insensitive occurrence of `Wait,` that is followed by no line
terminator (the regex `$` is end-of-string and `.` skips no terminator),
everything to the end of the string; when no such occurrence exists the step
is the identity; the step runs after the other replaces and before trimming;
the spec example holds. -/
theorem claim5_wait_last_line :
    (∀ s : Str, firstWaitPos s = none → removeWaitAux s = s) ∧
    (∀ (s : Str) (i : Nat), firstWaitPos s = some i →
      removeWaitAux s = s.take i ∧ waitMatchB (s.drop i) = true ∧
      ∀ j, j < i → waitMatchB (s.drop j) = false) ∧
    (∀ s : Str, s ≠ [] →
      cleanText s = jsTrim (removeWaitAux (removeStars (removeLabel (removeParens s))))) ∧
    cleanText "План готов. Wait, I think it\x27s actually a bedroom".data =
      "План готов.".data := by
  refine ⟨fun s h => firstWaitPos_none h, fun s i h => firstWaitPos_some s i h, ?_, by decide⟩
  intro s hs
  rw [cleanText, if_neg hs]

/-- C5 counterexample: in `"Wait, a\nb"` the (first) occurrence of `Wait,` is
followed by a line terminator, so the sanitizer does not truncate there and
returns the input unchanged, contradicting truncation at the first occurrence
unconditionally. -/
theorem claim5_cx :
    ciPrefixB waitPat "Wait, a\nb".data = true ∧
    cleanText "Wait, a\nb".data = "Wait, a\nb".data ∧
    "Wait, a\nb".data ≠ ([] : Str) :=
  ⟨by decide, by decide, by decide⟩

/-- C5 witness: the characterization applied at a concrete input whose first
`Wait,` occurrence is at index 3, plus the pipeline equation at a concrete
nonempty input. -/
theorem claim5_w :
    removeWaitAux "ab Wait, c".data = ("ab Wait, c".data).take 3 ∧
    waitMatchB (("ab Wait, c".data).drop 3) = true ∧
    waitMatchB (("ab Wait, c".data).drop 1) = false ∧
    cleanText "xyz".data =
      jsTrim (removeWaitAux (removeStars (removeLabel (removeParens "xyz".data)))) := by
  obtain ⟨h1, h2, h3⟩ := claim5_wait_last_line.2.1 "ab Wait, c".data 3 (by decide)
  exact ⟨h1, h2, h3 1 (by decide), claim5_wait_last_line.2.2.1 "xyz".data (by decide)⟩

/-- C6 (amended): the sanitizer maps `"Кухня (Kitchen) **важно**"` to
`"Кухня  важно"` (two spaces): the parenthetical and the bold markers are
removed but the bold text itself is kept, so the spec example value
`"Кухня"` is wrong. -/
theorem claim6_value :
    cleanText "Кухня (Kitchen) **важно**".data = "Кухня  важно".data := by
  decide

/-- C6 counterexample: the sanitizer does not map the spec example input to
`"Кухня"`. -/
theorem claim6_cx :
    cleanText "Кухня (Kitchen) **важно**".data ≠ "Кухня".data := by
  decide

/-- C7: `extractJSON` first strips the code-fence tokens; if the stripped
text has a `{` somewhere before a `}`, it returns exactly the span from the
first `{` through the last `}`; otherwise it returns the stripped text
unchanged; in particular `extractJSON "no json here" = "no json here"`. -/
theorem claim7_extract (t : Str) :
    ('{' ∉ stripFences t → extractJSON t = stripFences t) ∧
    (∀ a d, stripFences t = a ++ '{' :: d → '{' ∉ a →
      (('}' ∉ d → extractJSON t = stripFences t) ∧
      (∀ m b, d = m ++ '}' :: b → '}' ∉ b →
        extractJSON t = '{' :: (m ++ ['}'])))) ∧
    extractJSON "no json here".data = "no json here".data := by
  refine ⟨?_, ?_, by decide⟩
  · intro h
    unfold extractJSON
    rw [braceScan_none_of_no_open h]
  · intro a d hdec ha
    constructor
    · intro hd
      have hnone : braceScan (stripFences t) = none := by
        rw [hdec, braceScan_skip _ ha, braceScan, if_pos rfl, lastBrace_none_of hd]
        exact braceScan_none_of_no_close hd
      unfold extractJSON
      rw [hnone]
    · intro m b hmb hb
      have hsome : braceScan (stripFences t) = some ('{' :: (m ++ ['}'])) := by
        rw [hdec, braceScan_skip _ ha, braceScan, if_pos rfl, hmb, lastBrace_last hb]
      unfold extractJSON
      rw [hsome]

/-- C7 witness: the brace-pair branch applied at a concrete input. -/
theorem claim7_w : extractJSON "x{y}z".data = ['{', 'y', '}'] := by
  have h := (claim7_extract "x{y}z".data).2.1 ['x'] ['y', '}', 'z'] (by decide) (by decide)
  exact h.2 ['y'] ['z'] (by decide) (by decide)

/-- C8: starting from the seed exchange, after any sequence of exchanges with
N successes the API-facing history has exactly `2 + 2N` turns, its roles
alternate user/model starting with user, and the history is append-only:
running further events only appends to the existing history. -/
theorem claim8_history (img : String) (evs more : List ChatEvent) :
    (runChat img evs).length = 2 + 2 * succCount evs ∧
    (runChat img evs).map (fun c => c.role) = rolePattern ((runChat img evs).length) ∧
    (∃ t, runChat img evs ++ t = runChat img (evs ++ more)) := by
  have hseed_len : (createInitialHistory img).length = 2 := rfl
  have hseed_map : (createInitialHistory img).map (fun c => c.role) =
      rolePattern ((createInitialHistory img).length) := rfl
  obtain ⟨ha, hb, _⟩ := chat_invariant evs (createInitialHistory img)
    (by rw [hseed_len]) hseed_map
  refine ⟨?_, hb, ?_⟩
  · show (evs.foldl stepHistory (createInitialHistory img)).length = _
    rw [ha, hseed_len]
  · show ∃ t, evs.foldl stepHistory (createInitialHistory img) ++ t =
      (evs ++ more).foldl stepHistory (createInitialHistory img)
    rw [List.foldl_append]
    exact chat_append_only more (evs.foldl stepHistory (createInitialHistory img))

/-- C9: when the credential is configured, the request submitted by
`sendChatMessage` is exactly the history converted verbatim to the wire
shape (same roles, parts in order, each carrying its text or its inline
data), followed by one user turn whose parts are the optional (nonempty)
image followed by the message text, for every upstream outcome. -/
theorem claim9_request_shape (history : List GeminiContent) (m : String)
    (img : Option String) (out : ChatOutcome)
    (hwf : ∀ c ∈ history, ∀ p ∈ c.parts, wfPartB p = true)
    (himg : ∀ s, img = some s → s ≠ "") :
    (sendChatMessage true history m img out).2 =
      some ⟨"gemini-2.0-flash",
        history.map (fun c => ⟨c.role, c.parts.map verbatimPart⟩) ++
        [⟨"user", (match img with
          | some s => [WirePart.inlineData ⟨"image/jpeg", s⟩]
          | none => []) ++ [WirePart.text m]⟩]⟩ := by
  rw [sendChat_req]
  have hmap : history.map (fun msg => WireContent.mk msg.role (msg.parts.map convertPart)) =
      history.map (fun c => WireContent.mk c.role (c.parts.map verbatimPart)) :=
    List.map_congr_left fun c hc => by
      rw [WireContent.mk.injEq]
      exact ⟨rfl, List.map_congr_left fun p hp => convertPart_eq_verbatim (hwf c hc p hp)⟩
  have himgeq : (match img with
      | some i => if i = "" then [] else [WirePart.inlineData ⟨"image/jpeg", i⟩]
      | none => ([] : List WirePart)) = (match img with
      | some s => [WirePart.inlineData ⟨"image/jpeg", s⟩]
      | none => []) := by
    cases img with
    | none => rfl
    | some s => simp [if_neg (himg s rfl)]
  rw [hmap, himgeq]

/-- C9 witness: the theorem applied at the seed history with a concrete
message, no image, and a successful outcome. -/
theorem claim9_w :
    (sendChatMessage true (createInitialHistory "IMG") "привет" none
        (ChatOutcome.reply (some "ok"))).2 =
      some ⟨"gemini-2.0-flash",
        (createInitialHistory "IMG").map (fun c => ⟨c.role, c.parts.map verbatimPart⟩) ++
        [⟨"user", [WirePart.text "привет"]⟩]⟩ := by
  have h := claim9_request_shape (createInitialHistory "IMG") "привет" none
    (ChatOutcome.reply (some "ok")) (by decide) (fun s hs => by simp at hs)
  exact h

/-- C10: with no credential configured, `sendChatMessage` returns the fixed
configuration fallback as a normal result and issues no request; a failed
issued request returns the distinct generic fallback, so the two chat
failure modes are distinguishable by their text. -/
theorem claim10_key_missing (h : List GeminiContent) (m : String) (img : Option String)
    (out : ChatOutcome) (e : String) :
    sendChatMessage false h m img out = (Except.ok keyMissingMsg, none) ∧
    (sendChatMessage true h m img (ChatOutcome.threw e)).1 = Except.ok chatErrorMsg ∧
    keyMissingMsg ≠ chatErrorMsg :=
  ⟨rfl, rfl, by decide⟩

end TidyAI
